import Mathlib

/-!
Verification of the externals-tree model of a git-svn helper tool.

The development shallowly embeds the tool's data model and operations
(`Repo`, `ReplaceRelative`, `CookExternals`, `LinkRoot`, `RewritePaths`,
`Clean`, `WriteConfig`, `LoadConfig`) together with the handful of Go
standard-library string and path primitives they rely on
(`strings.SplitAfter`, `strings.Split`, `strings.Replace` with n = 1,
`strings.Trim` with cutset "/", `strings.SplitAfterN` with n = 2,
`path.Clean`, `path.Join`).  External processes (git invocations and the
filesystem) are modelled as explicit inputs.  Strings are treated
character-wise; all inputs of interest are ASCII, where this coincides
with Go's byte-wise treatment.
-/

/-! ## Go string primitives -/

/-- Model of Go regexp's Perl class `\s`, which is exactly `[\t\n\f\r ]`. -/
def goSpace (c : Char) : Bool :=
  c = ' ' ∨ c = '\t' ∨ c = '\n' ∨ c = '\x0c' ∨ c = '\r'

/-- Split a character list on a separator character, dropping the separator
(the list-level model of Go `strings.Split(s, sep)` for a one-character
separator). `strings.Split` always yields at least one piece. -/
def splitOnCharL (sep : Char) : List Char → List (List Char)
  | [] => [[]]
  | c :: rest =>
    let t := splitOnCharL sep rest
    if c = sep then [] :: t
    else
      match t with
      | [] => [[c]]
      | p :: ps => (c :: p) :: ps

/-- Split after each newline, keeping the newline at the end of each piece
(the list-level model of Go `strings.SplitAfter(s, "\n")`). -/
def splitAfterNlL : List Char → List (List Char)
  | [] => [[]]
  | c :: rest =>
    let t := splitAfterNlL rest
    if c = '\n' then [c] :: t
    else
      match t with
      | [] => [[c]]
      | p :: ps => (c :: p) :: ps

/-- Model of Go `strings.SplitAfterN(s, "/", 2)`: split after the first
slash only, keeping the slash at the end of the first piece. -/
def splitAfterSlashN2L : List Char → List (List Char)
  | [] => [[]]
  | c :: rest =>
    if c = '/' then [[c], rest]
    else
      match splitAfterSlashN2L rest with
      | [] => [[c]]
      | p :: ps => (c :: p) :: ps

/-- Scan for the leftmost occurrence of a non-empty pattern and replace it
(helper for `replaceFirstL`). -/
def replaceFirstGo (old new : List Char) : List Char → List Char
  | [] => []
  | c :: rest =>
    if old.isPrefixOf (c :: rest) then new ++ (c :: rest).drop old.length
    else c :: replaceFirstGo old new rest

/-- Model of Go `strings.Replace(s, old, new, 1)`: replace the first
occurrence of `old` by `new`; an empty `old` matches at the beginning of
the string. -/
def replaceFirstL (old new s : List Char) : List Char :=
  if old = [] then new ++ s else replaceFirstGo old new s

/-- Model of Go `strings.Contains(s, pat)`. -/
def containsSubL (pat : List Char) : List Char → Bool
  | [] => pat.isEmpty
  | c :: rest => pat.isPrefixOf (c :: rest) || containsSubL pat rest

/-- Model of Go `strings.Trim(s, "/")`: drop all leading and trailing
slash characters. -/
def trimSlashL (l : List Char) : List Char :=
  ((l.dropWhile (· = '/')).reverse.dropWhile (· = '/')).reverse

def splitOnNl (s : String) : List String :=
  (splitOnCharL '\n' s.data).map String.mk

def splitAfterNl (s : String) : List String :=
  (splitAfterNlL s.data).map String.mk

def splitAfterSlashN2 (s : String) : List String :=
  (splitAfterSlashN2L s.data).map String.mk

def replaceFirstS (s old new : String) : String :=
  String.mk (replaceFirstL old.data new.data s.data)

def containsSubS (s pat : String) : Bool :=
  containsSubL pat.data s.data

def trimSlashS (s : String) : String :=
  String.mk (trimSlashL s.data)

/-! ## Go `path.Clean` and `path.Join` -/

/-- Component processing of Go `path.Clean`: the accumulator is the
reversed list of output components; `..` pops a component (or is dropped
at the root, or kept at the front of a relative path). -/
def cleanStack (rooted : Bool) : List (List Char) → List (List Char) → List (List Char)
  | acc, [] => acc.reverse
  | acc, c :: cs =>
    if c = [] ∨ c = ['.'] then cleanStack rooted acc cs
    else if c = ['.', '.'] then
      match acc with
      | [] => if rooted then cleanStack rooted [] cs else cleanStack rooted [c] cs
      | top :: rest =>
        if top = ['.', '.'] then cleanStack rooted (c :: acc) cs
        else cleanStack rooted rest cs
    else cleanStack rooted (c :: acc) cs

/-- Model of Go `path.Clean`: collapse multiple slashes, eliminate `.`
and `..` components, return "." for an empty relative result and "/" for
an empty rooted result. -/
def pathClean (p : String) : String :=
  if p = "" then "."
  else
    let rooted := p.data.head? = some '/'
    let comps := cleanStack rooted [] (splitOnCharL '/' p.data)
    if rooted then String.mk ('/' :: List.intercalate ['/'] comps)
    else if comps = [] then "."
    else String.mk (List.intercalate ['/'] comps)

/-- Model of Go `path.Join`: drop leading empty elements, join the rest
with "/" and clean the result; all-empty input yields "". -/
def pathJoinList (elems : List String) : String :=
  match elems.dropWhile (· = "") with
  | [] => ""
  | es => pathClean (String.intercalate "/" es)

def pathJoin2 (a b : String) : String := pathJoinList [a, b]

def pathJoin3 (a b c : String) : String := pathJoinList [a, b, c]

/-! ## Reference resolver (`ReplaceRelative`, gish.go lines 203-219) -/

/-- Model of `ReplaceRelative(repoRootUrl, externalRef)`: split the raw
reference after its first slash and switch on the first piece.  `^/` is
resolved against the repository root; `../`, `//` and `/` are the
unsupported relative kinds (the Go switch falls through all three to the
same error); anything else is returned unchanged.  (The `//` case is
unreachable: a reference starting with two slashes splits into a first
piece of just `/`.) -/
def ReplaceRelative (repoRootUrl externalRef : String) : Except String String :=
  let refParts := splitAfterSlashN2 externalRef
  let p0 := refParts.headD ""
  if p0 = "^/" then Except.ok (repoRootUrl ++ "/" ++ refParts.getD 1 "")
  else if p0 = "../" then Except.error "Unhandled relative extern type"
  else if p0 = "//" then Except.error "Unhandled relative extern type"
  else if p0 = "/" then Except.error "Unhandled relative extern type"
  else Except.ok externalRef

/-! ## Basic string lemmas -/

theorem strDataAppend (a b : String) : (a ++ b).data = a.data ++ b.data := by
  cases a; cases b; rfl

theorem strMkData (s : String) : String.mk s.data = s := rfl

theorem strExt {a b : String} (h : a.data = b.data) : a = b := by
  cases a; cases b; exact congrArg String.mk h

theorem strAppendCancelLeft {a b c : String} (h : a ++ b = a ++ c) : b = c := by
  apply strExt
  have hd : a.data ++ b.data = a.data ++ c.data := by
    rw [← strDataAppend, ← strDataAppend, h]
  exact List.append_cancel_left hd

/-- Structure of `splitAfterSlashN2L`: either the input has no slash and
is returned whole, or it splits as the slash-free part before the first
slash (with the slash appended) and the remainder. -/
theorem splitAfterSlashN2L_spec (l : List Char) :
    ('/' ∉ l ∧ splitAfterSlashN2L l = [l]) ∨
    (∃ a b, l = a ++ '/' :: b ∧ '/' ∉ a ∧ splitAfterSlashN2L l = [a ++ ['/'], b]) := by
  induction l with
  | nil => exact Or.inl ⟨by simp, rfl⟩
  | cons c rest ih =>
    by_cases hc : c = '/'
    · subst hc
      refine Or.inr ⟨[], rest, rfl, by simp, ?_⟩
      simp [splitAfterSlashN2L]
    · rcases ih with ⟨hni, heq⟩ | ⟨a, b, hl, hna, heq⟩
      · have hc2 : ¬('/' = c) := fun h => hc h.symm
        refine Or.inl ⟨by simp [hni, hc2], ?_⟩
        simp [splitAfterSlashN2L, hc, heq]
      · have hc2 : ¬('/' = c) := fun h => hc h.symm
        refine Or.inr ⟨c :: a, b, by simp [hl], by simp [hna, hc2], ?_⟩
        simp [splitAfterSlashN2L, hc, heq]

theorem splitCaretL (l : List Char) :
    splitAfterSlashN2L ('^' :: '/' :: l) = [['^', '/'], l] := rfl

theorem splitDotDotL (l : List Char) :
    splitAfterSlashN2L ('.' :: '.' :: '/' :: l) = [['.', '.', '/'], l] := rfl

theorem splitSlashHeadL (l : List Char) :
    splitAfterSlashN2L ('/' :: l) = [['/'], l] := rfl

/-- C2: the reference resolver realizes exactly the three specified
outcomes: a `^/`-reference resolves to the repository root URL plus "/"
plus the remainder; a reference starting with `../`, `//` or a bare `/`
fails with the unhandled-relative-kind error; any other reference is
returned unchanged. -/
theorem claim_C2_resolver (root ref : String) :
    (∀ s, ref = "^/" ++ s → ReplaceRelative root ref = Except.ok (root ++ "/" ++ s)) ∧
    ((∃ s, ref = "../" ++ s ∨ ref = "//" ++ s ∨ ref = "/" ++ s) →
      ReplaceRelative root ref = Except.error "Unhandled relative extern type") ∧
    ((¬ ∃ s, ref = "^/" ++ s ∨ ref = "../" ++ s ∨ ref = "//" ++ s ∨ ref = "/" ++ s) →
      ReplaceRelative root ref = Except.ok ref) := by
  refine ⟨?_, ?_, ?_⟩
  · intro s hs
    subst hs
    have hdata : ("^/" ++ s).data = '^' :: '/' :: s.data := by
      rw [strDataAppend]; rfl
    unfold ReplaceRelative splitAfterSlashN2
    rw [hdata, splitCaretL]
    simp only [List.map, strMkData]
    norm_num [List.headD, List.getD]
  · intro hex
    rcases hex with ⟨s, hs | hs | hs⟩ <;> subst hs
    · have hdata : ("../" ++ s).data = '.' :: '.' :: '/' :: s.data := by
        rw [strDataAppend]; rfl
      unfold ReplaceRelative splitAfterSlashN2
      rw [hdata, splitDotDotL]
      simp only [List.map, strMkData, List.headD_cons]
      rw [if_neg (by decide), if_pos (by decide)]
    · have hdata : ("//" ++ s).data = '/' :: '/' :: s.data := by
        rw [strDataAppend]; rfl
      unfold ReplaceRelative splitAfterSlashN2
      rw [hdata, splitSlashHeadL]
      simp only [List.map, strMkData, List.headD_cons]
      rw [if_neg (by decide), if_neg (by decide), if_neg (by decide), if_pos (by decide)]
    · have hdata : ("/" ++ s).data = '/' :: s.data := by
        rw [strDataAppend]; rfl
      unfold ReplaceRelative splitAfterSlashN2
      rw [hdata, splitSlashHeadL]
      simp only [List.map, strMkData, List.headD_cons]
      rw [if_neg (by decide), if_neg (by decide), if_neg (by decide), if_pos (by decide)]
  · intro hne
    rcases splitAfterSlashN2L_spec ref.data with ⟨hni, heq⟩ | ⟨a, b, hl, hna, heq⟩
    · have h1 : ref ≠ "^/" := fun h => hne ⟨"", Or.inl (h.trans (by decide))⟩
      have h2 : ref ≠ "../" := fun h =>
        hne ⟨"", Or.inr (Or.inl (h.trans (by decide)))⟩
      have h3 : ref ≠ "//" := fun h =>
        hne ⟨"", Or.inr (Or.inr (Or.inl (h.trans (by decide))))⟩
      have h4 : ref ≠ "/" := fun h =>
        hne ⟨"", Or.inr (Or.inr (Or.inr (h.trans (by decide))))⟩
      unfold ReplaceRelative splitAfterSlashN2
      rw [heq]
      simp only [List.map, strMkData]
      simp [List.headD, h1, h2, h3, h4]
    · have h1 : String.mk (a ++ ['/']) ≠ "^/" := by
        intro h
        have hd : a ++ ['/'] = ['^'] ++ ['/'] := congrArg String.data h
        have ha : a = ['^'] := List.append_cancel_right hd
        refine hne ⟨String.mk b, Or.inl (strExt ?_)⟩
        rw [hl, ha, strDataAppend]
        rfl
      have h2 : String.mk (a ++ ['/']) ≠ "../" := by
        intro h
        have hd : a ++ ['/'] = ['.', '.'] ++ ['/'] := congrArg String.data h
        have ha : a = ['.', '.'] := List.append_cancel_right hd
        refine hne ⟨String.mk b, Or.inr (Or.inl (strExt ?_))⟩
        rw [hl, ha, strDataAppend]
        rfl
      have h3 : String.mk (a ++ ['/']) ≠ "//" := by
        intro h
        have hd : a ++ ['/'] = ['/'] ++ ['/'] := congrArg String.data h
        have ha : a = ['/'] := List.append_cancel_right hd
        exact hna (by simp [ha])
      have h4 : String.mk (a ++ ['/']) ≠ "/" := by
        intro h
        have hd : a ++ ['/'] = [] ++ ['/'] := congrArg String.data h
        have ha : a = [] := List.append_cancel_right hd
        refine hne ⟨String.mk b, Or.inr (Or.inr (Or.inr (strExt ?_)))⟩
        rw [hl, ha, strDataAppend]
        rfl
      unfold ReplaceRelative splitAfterSlashN2
      rw [heq]
      simp only [List.map, strMkData]
      simp [List.headD, h1, h2, h3, h4]

/-- C2 witness: `^/lib/foo` against root `svn://host/repo`. -/
theorem claim_C2_witness :
    ReplaceRelative "svn://host/repo" "^/lib/foo" = Except.ok "svn://host/repo/lib/foo" := by
  have h := (claim_C2_resolver "svn://host/repo" "^/lib/foo").1 "lib/foo" (by decide)
  exact h.trans (congrArg Except.ok (by decide))

/-! ## The tree model (`Repo`, gish.go lines 237-244)

A Go `Repo` value holds `Path`, `Url`, `CheckoutArgs`, `ExternalsKnown`,
an owned slice `Externals []Repo` and a non-owning pointer `Root *Repo`.
Pointers are modelled by giving every node a heap address (`addr`, a
`Nat`); the `Root` field holds the address of the node it points to, with
`none` for Go's nil.  Pointer equality is address equality. -/
inductive Repo where
  | mk (addr : Nat) (Path Url CheckoutArgs : String) (ExternalsKnown : Bool)
       (Externals : List Repo) (Root : Option Nat)

def Repo.addr : Repo → Nat
  | .mk a _ _ _ _ _ _ => a

def Repo.Path : Repo → String
  | .mk _ p _ _ _ _ _ => p

def Repo.Url : Repo → String
  | .mk _ _ u _ _ _ _ => u

def Repo.CheckoutArgs : Repo → String
  | .mk _ _ _ c _ _ _ => c

def Repo.ExternalsKnown : Repo → Bool
  | .mk _ _ _ _ k _ _ => k

def Repo.Externals : Repo → List Repo
  | .mk _ _ _ _ _ exts _ => exts

def Repo.Root : Repo → Option Nat
  | .mk _ _ _ _ _ _ r => r

mutual
/-- All nodes of a tree, depth-first, node before children (the canonical
traversal order). -/
def RepoNodes : Repo → List Repo
  | .mk a p u c k exts r => Repo.mk a p u c k exts r :: RepoNodesList exts
def RepoNodesList : List Repo → List Repo
  | [] => []
  | e :: es => RepoNodes e ++ RepoNodesList es
end

mutual
/-- Model of `(*Repo) Paths` (gish.go lines 307-315): the node's path
followed by the paths of all externals, recursively. -/
def Repo.Paths : Repo → List String
  | .mk _ p _ _ _ exts _ => p :: RepoPathsList exts
def RepoPathsList : List Repo → List String
  | [] => []
  | e :: es => Repo.Paths e ++ RepoPathsList es
end

mutual
/-- Model of `LinkTo(externs, root)` (gish.go lines 442-447): set every
node's `Root` pointer in all the given subtrees to the given address. -/
def LinkToOne (e : Repo) (rootAddr : Nat) : Repo :=
  match e with
  | .mk a p u c k exts _ => .mk a p u c k (LinkTo exts rootAddr) (some rootAddr)
def LinkTo : List Repo → Nat → List Repo
  | [], _ => []
  | e :: es, rootAddr => LinkToOne e rootAddr :: LinkTo es rootAddr
end

/-- Model of `(*Repo) LinkRoot` (gish.go lines 450-453): point the node's
own `Root` at itself and stamp every descendant with the same address. -/
def Repo.LinkRoot : Repo → Repo
  | .mk a p u c k exts _ => .mk a p u c k (LinkTo exts a) (some a)

mutual
/-- Model of `RewritePaths(repo, from, to)` (gish.go lines 455-460):
replace the first occurrence of `from` by `to` in every node's path,
recursively. -/
def RewritePaths (repo : Repo) (f t : String) : Repo :=
  match repo with
  | .mk a p u c k exts r => .mk a (replaceFirstS p f t) u c k (RewritePathsList exts f t) r
def RewritePathsList : List Repo → String → String → List Repo
  | [], _, _ => []
  | e :: es, f, t => RewritePaths e f t :: RewritePathsList es f t
end

/-! ## Serialized configuration (`WriteConfig` / `LoadConfig`)

`WriteConfig` marshals the root `Repo` to JSON; the `Root` field carries
the tag `json:"-"` and is excluded.  The serialized document therefore
holds exactly path, url, checkout args, the externals-known flag and the
(ordered) children, recursively. -/
inductive SerRepo where
  | mk (Path Url CheckoutArgs : String) (ExternalsKnown : Bool) (Externals : List SerRepo)

mutual
/-- Model of `json.MarshalIndent(repo, ...)` restricted to the fields the
struct exposes to JSON: everything except the `json:"-"` field `Root`
(and except the model-side heap address, which does not exist as a Go
field at all). -/
def MarshalRepo : Repo → SerRepo
  | .mk _ p u c k exts _ => .mk p u c k (MarshalList exts)
def MarshalList : List Repo → List SerRepo
  | [] => []
  | e :: es => MarshalRepo e :: MarshalList es
end

mutual
/-- Model of `json.Unmarshal` of a whole-tree document into a fresh
`Repo`: all JSON fields are restored, the `Root` pointer of every node is
left nil (its tag excludes it), and each allocated node gets a fresh heap
address from a counter (Go allocations are distinct). Returns the node
and the next free address. -/
def UnmarshalRepo : SerRepo → Nat → Repo × Nat
  | .mk p u c k exts, fresh =>
    let r := UnmarshalList exts (fresh + 1)
    (.mk fresh p u c k r.1 none, r.2)
def UnmarshalList : List SerRepo → Nat → List Repo × Nat
  | [], fresh => ([], fresh)
  | e :: es, fresh =>
    let r1 := UnmarshalRepo e fresh
    let r2 := UnmarshalList es r1.2
    (r1.1 :: r2.1, r2.2)
end

/-! ## The externals parser (`CookExternals`, gish.go lines 255-298)

The scanner splits the raw listing with `strings.SplitAfter(raw, "\n")`
and alternates between two states.  In the header state it tries the
anchored pattern `^#\s(.*)` (a hash, exactly one whitespace character,
then the capture, which cannot cross a newline).  In the entry state it
tries `^<quoted-base>(\S*)\s(.*)`: the line must begin with the
literal base path captured by the header; the first capture is the
maximal run of non-whitespace characters after it (used as the raw URL
reference), then one whitespace character, then the second capture (used
as the path suffix).  `GitSvnInfo(path, "Repository Root")` is an
external process query and is passed in as an explicit input. -/

/-- Model of `regexp FindStringSubmatch` for the anchored header pattern,
returning the capture. -/
def pathHeaderMatch (line : String) : Option String :=
  match line.data with
  | '#' :: c :: rest => if goSpace c then some (String.mk (rest.takeWhile (· ≠ '\n'))) else none
  | _ => none

/-- Model of `regexp FindStringSubmatch` for the anchored entry pattern
built from a quoted base path, returning the two captures.  Backtracking
note: `(\S*)\s` can only match the maximal non-whitespace run followed by
the whitespace character that ends it, so the match exists exactly when
some character after the base-path prefix is whitespace. -/
def extEntryMatch (base line : String) : Option (String × String) :=
  if base.data.isPrefixOf line.data then
    let rest := line.data.drop base.data.length
    let tok := rest.takeWhile (fun c => ¬ goSpace c)
    match rest.drop tok.length with
    | [] => none
    | _ :: after => some (String.mk tok, String.mk (after.takeWhile (· ≠ '\n')))
  else none

/-- The scanner loop of `CookExternals`.  Arguments mirror the Go locals:
the externals-listing lines still to process, the `expecting` state
(`true` = expecting an entry line), the last header capture, the
accumulated `repo.Externals` slice, and the allocation counter for new
nodes.  `repoRootInfo` is the (fixed) outcome of the
`GitSvnInfo(repo.Path, "Repository Root")` process call, `repoPath` is
`repo.Path` and `rootPtr` is `repo.Root`.  Returns the final externals
slice, the next free address and the error, if any. -/
def cookLines (repoRootInfo : Except String String) (repoPath : String) (rootPtr : Option Nat) :
    List String → Bool → String → List Repo → Nat → List Repo × Nat × Option String
  | [], _, _, acc, ctr => (acc, ctr, none)
  | line :: rest, expectingExt, lastPath, acc, ctr =>
    if expectingExt = false then
      match pathHeaderMatch line with
      | some cap => cookLines repoRootInfo repoPath rootPtr rest true cap acc ctr
      | none => cookLines repoRootInfo repoPath rootPtr rest false lastPath acc ctr
    else
      match extEntryMatch lastPath line with
      | some m =>
        match repoRootInfo with
        | .error e => (acc, ctr, some e)
        | .ok repoRoot =>
          match ReplaceRelative repoRoot m.1 with
          | .error e => (acc, ctr, some ("Error with extern " ++ e ++ "\n"))
          | .ok svnUrl =>
            cookLines repoRootInfo repoPath rootPtr rest false lastPath
              (acc ++ [Repo.mk ctr (pathJoin3 repoPath lastPath m.2) svnUrl "" false [] rootPtr])
              (ctr + 1)
      | none => cookLines repoRootInfo repoPath rootPtr rest false lastPath acc ctr

/-- Model of `(*Repo) CookExternals(rawExternals)`: run the scanner over
the split lines, appending each discovered external (path joined from the
owner's path, the header base and the suffix capture; URL resolved via
`ReplaceRelative`; `Root` copied from the owner) to `repo.Externals` in
place.  On the first resolution or info failure the error is returned
with the appends retained; on success `ExternalsKnown` is set. -/
def CookExternals (repoRootInfo : Except String String) (repo : Repo) (rawExternals : String)
    (ctr : Nat) : Repo × Nat × Option String :=
  match repo with
  | .mk a p u c k exts r =>
    match cookLines repoRootInfo p r (splitAfterNl rawExternals) false "" exts ctr with
    | (exts2, ctr2, some e) => (.mk a p u c k exts2 r, ctr2, some e)
    | (exts2, ctr2, none) => (.mk a p u c true exts2 r, ctr2, none)

/-- The observable (path, url) pairs of a node's direct externals. -/
def ExtPairs (repo : Repo) : List (String × String) :=
  repo.Externals.map (fun e => (e.Path, e.Url))

/-! ## Claims C1 and C4: parser behavior on concrete listings -/

/-- A concrete owning repository at `/repo`, root pointer already linked. -/
def gishRepoEx : Repo := .mk 0 "/repo" "svn://host/repo" "" false [] (some 0)

/-- The listing of the claim: header `# trunk/vendor`, then entry lines
that start with the suffix (`libA ...`), not with the base path. -/
def specListing : String :=
  "# trunk/vendor\nlibA             svn://host/libs/a\nlibB             svn://host/libs/b\n"

/-- A listing in the shape the scanner accepts: each entry line repeats
the header's base path, carries the raw URL reference right after it and
the local-path suffix as the second field. -/
def baseFormListing : String :=
  "# /vendor/\n/vendor/^/libs/a libA\n# /vendor/\n/vendor/^/libs/b libB\n"

/-- A listing whose second entry carries an unsupported `../` reference;
the first entry is well-formed and resolvable. -/
def badRefListing : String :=
  "# /vendor/\n/vendor/^/libs/a libA\n# /vendor/\n/vendor/../bad libB\n"

/-- C1 counterexample: on the exact listing of the claim the parse yields
no entries at all — the entry regex requires each entry line to begin
with the captured base path `trunk/vendor`, and `libA ...` does not — so
the claimed pair sequence is not produced. -/
theorem claim_C1_counterexample :
    ExtPairs (CookExternals (.ok "svn://host") gishRepoEx specListing 1).1 ≠
      [("/repo/trunk/vendor/libA", "svn://host/libs/a"),
       ("/repo/trunk/vendor/libB", "svn://host/libs/b")] := by decide

/-- C1 amended: parsing the claim's listing with owner path `/repo`
yields the empty entry sequence (each `libA ...` line fails the
base-path-anchored entry pattern and is skipped), with no error and the
externals-known flag set.  On a listing whose entry lines do begin with
the captured base path and carry the URL reference first, each entry's
local path is join(owner path, captured base path, suffix capture) and
its url is the resolved reference. -/
theorem claim_C1_amended_parse :
    (ExtPairs (CookExternals (.ok "svn://host") gishRepoEx specListing 1).1 = [] ∧
     (CookExternals (.ok "svn://host") gishRepoEx specListing 1).2.2 = none ∧
     (CookExternals (.ok "svn://host") gishRepoEx specListing 1).1.ExternalsKnown = true) ∧
    ExtPairs (CookExternals (.ok "svn://host/repo") gishRepoEx baseFormListing 1).1 =
      [("/repo/vendor/libA", "svn://host/repo/libs/a"),
       ("/repo/vendor/libB", "svn://host/repo/libs/b")] := by decide

/-- C4 counterexample: a resolution failure mid-scan does return the
first resolution error, but the entry matched before the failing line
remains appended to the owning repo's externals list while
`ExternalsKnown` stays false — so the parse does leave a partial result
and `externalsKnown == false` no longer implies an empty children list. -/
theorem claim_C4_counterexample :
    (CookExternals (.ok "svn://host/repo") gishRepoEx badRefListing 1).2.2 =
      some "Error with extern Unhandled relative extern type\n" ∧
    ExtPairs (CookExternals (.ok "svn://host/repo") gishRepoEx badRefListing 1).1 =
      [("/repo/vendor/libA", "svn://host/repo/libs/a")] ∧
    (CookExternals (.ok "svn://host/repo") gishRepoEx badRefListing 1).1.ExternalsKnown =
      false := by decide

/-- The scanner only ever appends to the externals accumulator. -/
theorem cookLines_appends (info : Except String String) (p : String) (r : Option Nat) :
    ∀ (lines : List String) (exp : Bool) (lp : String) (acc : List Repo) (ctr : Nat),
      ∃ app, (cookLines info p r lines exp lp acc ctr).1 = acc ++ app := by
  intro lines
  induction lines with
  | nil =>
    intro exp lp acc ctr
    exact ⟨[], by simp [cookLines]⟩
  | cons line rest ih =>
    intro exp lp acc ctr
    cases exp with
    | false =>
      cases hm : pathHeaderMatch line with
      | none => simpa [cookLines, hm] using ih false lp acc ctr
      | some cap => simpa [cookLines, hm] using ih true cap acc ctr
    | true =>
      cases hm : extEntryMatch lp line with
      | none => simpa [cookLines, hm] using ih false lp acc ctr
      | some m =>
        cases info with
        | error e => exact ⟨[], by simp [cookLines, hm]⟩
        | ok repoRoot =>
          cases hr : ReplaceRelative repoRoot m.1 with
          | error e => exact ⟨[], by simp [cookLines, hm, hr]⟩
          | ok svnUrl =>
            obtain ⟨app, happ⟩ := ih false lp
              (acc ++ [Repo.mk ctr (pathJoin3 p lp m.2) svnUrl "" false [] r]) (ctr + 1)
            exact ⟨[Repo.mk ctr (pathJoin3 p lp m.2) svnUrl "" false [] r] ++ app,
              by simp [cookLines, hm, hr]; simpa using happ⟩

/-- C4 amended: a parse that fails returns the first resolution error and
leaves `ExternalsKnown` untouched (so still false if it was false), but it
does not roll back partial work: the resulting externals list is the
original list with the entries matched before the failure appended. -/
theorem claim_C4_amended (info : Except String String) (repo : Repo) (raw : String) (ctr : Nat)
    (herr : ((CookExternals info repo raw ctr).2.2).isSome = true) :
    ((CookExternals info repo raw ctr).1).ExternalsKnown = repo.ExternalsKnown ∧
    ∃ app, ((CookExternals info repo raw ctr).1).Externals = repo.Externals ++ app := by
  cases repo with
  | mk a p u c k exts r =>
    obtain ⟨app, happ⟩ := cookLines_appends info p r (splitAfterNl raw) false "" exts ctr
    cases h2 : cookLines info p r (splitAfterNl raw) false "" exts ctr with
    | mk exts2 rest2 =>
      cases rest2 with
      | mk ctr2 err =>
        cases err with
        | none => simp [CookExternals, h2] at herr
        | some e =>
          rw [h2] at happ
          refine ⟨?_, app, ?_⟩
          · simp [CookExternals, h2, Repo.ExternalsKnown]
          · simpa [CookExternals, h2, Repo.Externals] using happ

/-- C4 witness: the amended statement applied to the listing whose second
entry fails to resolve. -/
theorem claim_C4_witness :
    ((CookExternals (.ok "svn://host/repo") gishRepoEx badRefListing 1).1).ExternalsKnown =
      gishRepoEx.ExternalsKnown ∧
    ∃ app, ((CookExternals (.ok "svn://host/repo") gishRepoEx badRefListing 1).1).Externals =
      gishRepoEx.Externals ++ app :=
  claim_C4_amended (.ok "svn://host/repo") gishRepoEx badRefListing 1 (by decide)

/-! ## Claim C7: `LinkRoot` -/

mutual
/-- After `LinkTo`, every node of the relinked subtree points at the
given root address. -/
theorem linkToOne_root (e : Repo) (ra : Nat) :
    ∀ n ∈ RepoNodes (LinkToOne e ra), n.Root = some ra := by
  cases e with
  | mk a p u c k exts r =>
    intro n hn
    simp only [LinkToOne, RepoNodes] at hn
    rcases List.mem_cons.mp hn with h | h
    · subst h; rfl
    · exact linkTo_root exts ra n h
theorem linkTo_root (es : List Repo) (ra : Nat) :
    ∀ n ∈ RepoNodesList (LinkTo es ra), n.Root = some ra := by
  cases es with
  | nil => intro n hn; simp [LinkTo, RepoNodesList] at hn
  | cons e es =>
    intro n hn
    simp only [LinkTo, RepoNodesList] at hn
    rcases List.mem_append.mp hn with h | h
    · exact linkToOne_root e ra n h
    · exact linkTo_root es ra n h
end

mutual
/-- Relinking does not change the traversal's address list. -/
theorem linkToOne_addrs (e : Repo) (ra : Nat) :
    (RepoNodes (LinkToOne e ra)).map Repo.addr = (RepoNodes e).map Repo.addr := by
  cases e with
  | mk a p u c k exts r =>
    simp only [LinkToOne, RepoNodes, List.map_cons, Repo.addr]
    rw [linkTo_addrs exts ra]
theorem linkTo_addrs (es : List Repo) (ra : Nat) :
    (RepoNodesList (LinkTo es ra)).map Repo.addr = (RepoNodesList es).map Repo.addr := by
  cases es with
  | nil => rfl
  | cons e es =>
    simp only [LinkTo, RepoNodesList, List.map_append]
    rw [linkToOne_addrs e ra, linkTo_addrs es ra]
end

mutual
/-- Relinking with the same address twice equals relinking once. -/
theorem linkToOne_idem (e : Repo) (ra : Nat) :
    LinkToOne (LinkToOne e ra) ra = LinkToOne e ra := by
  cases e with
  | mk a p u c k exts r =>
    simp only [LinkToOne]
    rw [linkTo_idem exts ra]
theorem linkTo_idem (es : List Repo) (ra : Nat) :
    LinkTo (LinkTo es ra) ra = LinkTo es ra := by
  cases es with
  | nil => rfl
  | cons e es =>
    simp only [LinkTo]
    rw [linkToOne_idem e ra, linkTo_idem es ra]
end

/-- C7: given pairwise-distinct node addresses (Go heap allocations are
distinct), after `LinkRoot` every node of the tree (the new root
included) has its `Root` pointer equal to the root's address, exactly one
node — the root — points at itself, and running `LinkRoot` a second time
changes nothing. -/
theorem claim_C7_linkRoot (t : Repo)
    (hnd : ((RepoNodes t).map Repo.addr).Nodup) :
    (∀ n ∈ RepoNodes t.LinkRoot, n.Root = some t.LinkRoot.addr) ∧
    (RepoNodes t.LinkRoot).countP (fun n => n.Root == some n.addr) = 1 ∧
    t.LinkRoot.LinkRoot = t.LinkRoot := by
  cases t with
  | mk a p u c k exts r =>
    have hroot : ∀ n ∈ RepoNodes (Repo.mk a p u c k exts r).LinkRoot,
        n.Root = some (Repo.mk a p u c k exts r).LinkRoot.addr := by
      intro n hn
      simp only [Repo.LinkRoot, RepoNodes] at hn
      rcases List.mem_cons.mp hn with h | h
      · subst h; rfl
      · exact linkTo_root exts a n h
    refine ⟨hroot, ?_, ?_⟩
    · simp only [Repo.LinkRoot, RepoNodes, List.countP_cons]
      have htail : (RepoNodesList (LinkTo exts a)).countP (fun n => n.Root == some n.addr) = 0 := by
        rw [List.countP_eq_zero]
        intro n hn
        have h1 : n.Root = some a := linkTo_root exts a n hn
        have h2 : n.addr ≠ a := by
          intro hEq
          simp only [RepoNodes, List.map_cons, Repo.addr, List.nodup_cons] at hnd
          apply hnd.1
          have : n.addr ∈ (RepoNodesList (LinkTo exts a)).map Repo.addr :=
            List.mem_map_of_mem Repo.addr hn
          rw [linkTo_addrs exts a] at this
          rw [hEq] at this
          exact this
        simp only [h1, beq_iff_eq, Option.some.injEq]
        exact fun hh => h2 hh.symm
      rw [htail]
      simp [Repo.Root, Repo.addr]
    · simp only [Repo.LinkRoot]
      rw [linkTo_idem exts a]

/-- A concrete three-level tree with distinct addresses. -/
def treeEx : Repo :=
  .mk 0 "/r" "svn://h/r" "" true
    [.mk 1 "/r/a" "svn://h/a" "" true
       [.mk 2 "/r/a/b" "svn://h/b" "" false [] none] none,
     .mk 3 "/r/c" "svn://h/c" "" false [] none] none

/-- C7 witness: the linked three-level tree has exactly one self-rooted
node, relinking is a no-op, and the deepest node points at the root. -/
theorem claim_C7_witness :
    (RepoNodes treeEx.LinkRoot).countP (fun n => n.Root == some n.addr) = 1 ∧
    treeEx.LinkRoot.LinkRoot = treeEx.LinkRoot ∧
    (Repo.mk 2 "/r/a/b" "svn://h/b" "" false [] (some 0)).Root = some treeEx.LinkRoot.addr :=
  ⟨(claim_C7_linkRoot treeEx (by decide)).2.1,
   (claim_C7_linkRoot treeEx (by decide)).2.2,
   (claim_C7_linkRoot treeEx (by decide)).1
     (Repo.mk 2 "/r/a/b" "svn://h/b" "" false [] (some 0)) (by
       simp [treeEx, Repo.LinkRoot, RepoNodes, RepoNodesList, LinkTo, LinkToOne])⟩

/-! ## Config store (`WriteConfig` gish.go lines 587-602, `LoadConfig` lines 605-624) -/

mutual
/-- Look a node up by heap address inside a tree (the heap view of the
in-memory tree: dereferencing a pointer that points into this tree). -/
def findByAddr : Repo → Nat → Option Repo
  | .mk a p u c k exts r, x =>
    if x = a then some (.mk a p u c k exts r) else findByAddrList exts x
def findByAddrList : List Repo → Nat → Option Repo
  | [], _ => none
  | e :: es, x =>
    match findByAddr e x with
    | some n => some n
    | none => findByAddrList es x
end

/-- Model of `(*Repo) WriteConfig`: if the receiver's `Root` pointer is
not the receiver itself (pointer comparison = address comparison), the
call delegates to `repo.Root.WriteConfig()`; delegating through a nil
`Root` reads a field through a nil pointer and faults.  At the root the
whole tree is marshalled (the subsequent write of the marshalled bytes to
the note or file is outside the model).  `heap` dereferences addresses;
`fuel` bounds the delegation chain, which Go does not bound. -/
def WriteConfigFuel (heap : Nat → Option Repo) : Nat → Repo → Except String SerRepo
  | 0, _ => Except.error "out of fuel"
  | fuel + 1, repo =>
    if repo.Root = some repo.addr then Except.ok (MarshalRepo repo)
    else
      match repo.Root with
      | none => Except.error "runtime error: invalid memory address or nil pointer dereference"
      | some a =>
        match heap a with
        | none => Except.error "dangling pointer"
        | some target => WriteConfigFuel heap fuel target

/-- The filesystem and server state `LoadConfig` can observe: whether the
config path is a directory, the parsed whole-tree document available from
the git-notes store (`ReadConfigV3`) if any, the parsed document
available from the `gish.conf` cache file (`ReadConfigV2`) if any, and
whether the legacy v1 raw externals-cache file (`git_svn_externals`) is
present in the directory. -/
structure ConfigFs where
  isDir : Bool
  v3 : Option SerRepo
  v2 : Option SerRepo
  legacyPresent : Bool

/-- Model of `LoadConfig(path)`: reject non-directories, try the v3
(git-notes) document, fall back to the v2 cache file, otherwise fail with
"Unable to load gish config.".  A found document is unmarshalled and
`LinkRoot` is run on the result.  The function only reads: no branch
writes, copies or deletes anything, so the filesystem state — the legacy
v1 file in particular, whose path constant `gishCachePathV1` is declared
but never used by any code — is returned unchanged. -/
def LoadConfigM (fs : ConfigFs) : Except String Repo × ConfigFs :=
  if fs.isDir = false then (Except.error "Config path is not a directory", fs)
  else
    match fs.v3 with
    | some doc => (Except.ok ((UnmarshalRepo doc 0).1.LinkRoot), fs)
    | none =>
      match fs.v2 with
      | some doc => (Except.ok ((UnmarshalRepo doc 0).1.LinkRoot), fs)
      | none => (Except.error "Unable to load gish config.", fs)

/-! ## Claim C3: no legacy-cache migration exists in `LoadConfig` -/

/-- A repository directory holding only the legacy v1 cache file: both
current-format lookups fail. -/
def fsLegacyOnly : ConfigFs :=
  { isDir := true, v3 := none, v2 := none, legacyPresent := true }

/-- C3 counterexample: with the primary caches absent and the legacy file
present, `load` neither migrates nor deletes anything — it fails with
"Unable to load gish config." and the legacy file still exists
afterwards. -/
theorem claim_C3_counterexample :
    (LoadConfigM fsLegacyOnly).2.legacyPresent = true ∧
    (LoadConfigM fsLegacyOnly).1 = Except.error "Unable to load gish config." :=
  ⟨rfl, rfl⟩

/-- C3 amended: `load` performs no filesystem mutation at all (in
particular it never detects, migrates or deletes a legacy
externals-cache file), and when the two current-format caches are
unavailable it simply reports that no gish config could be loaded. -/
theorem claim_C3_amended (fs : ConfigFs) :
    (LoadConfigM fs).2 = fs ∧
    (fs.isDir = true → fs.v3 = none → fs.v2 = none →
      (LoadConfigM fs).1 = Except.error "Unable to load gish config.") := by
  obtain ⟨d, v3, v2, lg⟩ := fs
  cases d <;> cases v3 <;> cases v2 <;> simp [LoadConfigM]

/-- C3 witness: the amended statement at the legacy-only directory. -/
theorem claim_C3_witness :
    (LoadConfigM fsLegacyOnly).2 = fsLegacyOnly ∧
    (LoadConfigM fsLegacyOnly).1 = Except.error "Unable to load gish config." :=
  ⟨(claim_C3_amended fsLegacyOnly).1, (claim_C3_amended fsLegacyOnly).2 rfl rfl rfl⟩

/-! ## Claim C5: save-then-load round trip -/

mutual
/-- Unmarshalling restores exactly the marshalled document. -/
theorem marshal_unmarshal (d : SerRepo) : ∀ f, MarshalRepo (UnmarshalRepo d f).1 = d := by
  cases d with
  | mk p u c k exts =>
    intro f
    simp only [UnmarshalRepo, MarshalRepo]
    rw [marshal_unmarshalList exts (f + 1)]
theorem marshal_unmarshalList (ds : List SerRepo) :
    ∀ f, MarshalList (UnmarshalList ds f).1 = ds := by
  cases ds with
  | nil => intro f; rfl
  | cons d ds =>
    intro f
    simp only [UnmarshalList, MarshalList]
    rw [marshal_unmarshal d f, marshal_unmarshalList ds (UnmarshalRepo d f).2]
end

mutual
/-- Relinking root pointers does not change the serialized document. -/
theorem marshal_linkToOne (e : Repo) (ra : Nat) :
    MarshalRepo (LinkToOne e ra) = MarshalRepo e := by
  cases e with
  | mk a p u c k exts r =>
    simp only [LinkToOne, MarshalRepo]
    rw [marshal_linkTo exts ra]
theorem marshal_linkTo (es : List Repo) (ra : Nat) :
    MarshalList (LinkTo es ra) = MarshalList es := by
  cases es with
  | nil => rfl
  | cons e es =>
    simp only [LinkTo, MarshalList]
    rw [marshal_linkToOne e ra, marshal_linkTo es ra]
end

/-- `LinkRoot` does not change the serialized document: the root
back-reference is absent from the serialized form. -/
theorem marshal_linkRoot (t : Repo) : MarshalRepo t.LinkRoot = MarshalRepo t := by
  cases t with
  | mk a p u c k exts r =>
    simp only [Repo.LinkRoot, MarshalRepo]
    rw [marshal_linkTo exts a]

/-- After `LinkRoot`, every node of the tree points at the root's
address. -/
theorem linkRoot_roots (t : Repo) :
    ∀ n ∈ RepoNodes t.LinkRoot, n.Root = some t.LinkRoot.addr := by
  cases t with
  | mk a p u c k exts r =>
    intro n hn
    simp only [Repo.LinkRoot, RepoNodes] at hn
    rcases List.mem_cons.mp hn with h | h
    · subst h; rfl
    · exact linkTo_root exts a n h

/-- C5: serializing a tree and loading the document back (v3 store hit,
then the post-load `LinkRoot` pass) reproduces every node's path, url,
checkout args, externals-known flag and ordered children (the document of
the reloaded tree equals the original document, and the document captures
exactly those fields); the root back-reference is not serialized
(`LinkRoot` leaves the document unchanged); and every reloaded node's
root pointer is the reloaded top-level node's address. -/
theorem claim_C5_roundTrip (t : Repo) (legacy : Bool) :
    (LoadConfigM (ConfigFs.mk true (some (MarshalRepo t)) none legacy)).1 =
      Except.ok ((UnmarshalRepo (MarshalRepo t) 0).1.LinkRoot) ∧
    MarshalRepo ((UnmarshalRepo (MarshalRepo t) 0).1.LinkRoot) = MarshalRepo t ∧
    MarshalRepo t.LinkRoot = MarshalRepo t ∧
    (RepoNodes ((UnmarshalRepo (MarshalRepo t) 0).1.LinkRoot)).all
      (fun n => n.Root == some ((UnmarshalRepo (MarshalRepo t) 0).1.LinkRoot).addr) = true := by
  refine ⟨rfl, ?_, marshal_linkRoot t, ?_⟩
  · rw [marshal_linkRoot, marshal_unmarshal]
  · rw [List.all_eq_true]
    intro n hn
    have h := linkRoot_roots ((UnmarshalRepo (MarshalRepo t) 0).1) n hn
    simp [h]

/-! ## Claim C10: `WriteConfig` delegation safety -/

/-- `LinkRoot` preserves the traversal's address list. -/
theorem linkRoot_addrs (t : Repo) :
    (RepoNodes t.LinkRoot).map Repo.addr = (RepoNodes t).map Repo.addr := by
  cases t with
  | mk a p u c k exts r =>
    simp only [Repo.LinkRoot, RepoNodes, List.map_cons, Repo.addr]
    rw [linkTo_addrs exts a]

/-- C10: on a tree whose root pointers were set by `LinkRoot` (and whose
heap addresses are distinct), `WriteConfig` called on any node delegates
at most once — fuel 2 suffices — and serializes the whole tree anchored
at the root; on a node whose `Root` pointer was never set, the
delegation check dereferences the nil pointer and faults. -/
theorem claim_C10_writeConfig (t0 : Repo)
    (hnd : ((RepoNodes t0).map Repo.addr).Nodup) :
    (∀ n ∈ RepoNodes t0.LinkRoot,
      WriteConfigFuel (findByAddr t0.LinkRoot) 2 n = Except.ok (MarshalRepo t0.LinkRoot)) ∧
    (∀ (heap : Nat → Option Repo) (fuel : Nat) (n : Repo), n.Root = none →
      WriteConfigFuel heap (fuel + 1) n =
        Except.error "runtime error: invalid memory address or nil pointer dereference") := by
  constructor
  · cases t0 with
    | mk a p u c k exts r =>
      intro n hn
      simp only [Repo.LinkRoot, RepoNodes] at hn
      rcases List.mem_cons.mp hn with h | h
      · subst h
        simp [WriteConfigFuel, Repo.Root, Repo.addr, Repo.LinkRoot, RepoNodes]
      · have h1 : n.Root = some a := linkTo_root exts a n h
        have h2 : n.addr ≠ a := by
          intro hEq
          simp only [RepoNodes, List.map_cons, Repo.addr, List.nodup_cons] at hnd
          apply hnd.1
          have hm : n.addr ∈ (RepoNodesList (LinkTo exts a)).map Repo.addr :=
            List.mem_map_of_mem Repo.addr h
          rw [linkTo_addrs exts a] at hm
          rw [hEq] at hm
          exact hm
        have hcond : ¬(n.Root = some n.addr) := by
          rw [h1]
          exact fun hh => h2 (Option.some.inj hh).symm
        rw [show (2 : Nat) = 1 + 1 from rfl]
        rw [WriteConfigFuel]
        rw [if_neg hcond, h1]
        simp only [Repo.LinkRoot]
        rw [show findByAddr (Repo.mk a p u c k (LinkTo exts a) (some a)) a =
              some (Repo.mk a p u c k (LinkTo exts a) (some a)) by
            simp [findByAddr]]
        simp [WriteConfigFuel, Repo.Root, Repo.addr]
  · intro heap fuel n hnil
    rw [WriteConfigFuel]
    rw [if_neg (by simp [hnil]), hnil]

/-- C10 witness: a non-root node of the linked example tree delegates
once and writes the whole tree; a node with a nil root pointer faults. -/
theorem claim_C10_witness :
    WriteConfigFuel (findByAddr treeEx.LinkRoot) 2
        (Repo.mk 3 "/r/c" "svn://h/c" "" false [] (some 0)) =
      Except.ok (MarshalRepo treeEx.LinkRoot) ∧
    WriteConfigFuel (fun _ => none) (0 + 1) (Repo.mk 7 "/x" "svn://h/x" "" false [] none) =
      Except.error "runtime error: invalid memory address or nil pointer dereference" :=
  ⟨(claim_C10_writeConfig treeEx (by decide)).1
      (Repo.mk 3 "/r/c" "svn://h/c" "" false [] (some 0))
      (by simp [treeEx, Repo.LinkRoot, RepoNodes, RepoNodesList, LinkTo, LinkToOne]),
   (claim_C10_writeConfig treeEx (by decide)).2 (fun _ => none) 0
      (Repo.mk 7 "/x" "svn://h/x" "" false [] none) rfl⟩

/-! ## Claim C8: `RewritePaths` -/

theorem replaceFirstGo_pre (o : Char) (old2 rest new : List Char) :
    replaceFirstGo (o :: old2) new ((o :: old2) ++ rest) = new ++ rest := by
  show replaceFirstGo (o :: old2) new (o :: (old2 ++ rest)) = new ++ rest
  rw [replaceFirstGo]
  have hpre : (o :: old2).isPrefixOf (o :: (old2 ++ rest)) = true :=
    List.isPrefixOf_iff_prefix.mpr (List.prefix_append (o :: old2) rest)
  rw [if_pos hpre]
  congr 1
  exact List.drop_left (o :: old2) rest

/-- Replacing the first occurrence of a pattern in a string that starts
with it replaces exactly that leading occurrence. -/
theorem replaceFirst_pre (old rest new : List Char) :
    replaceFirstL old new (old ++ rest) = new ++ rest := by
  cases old with
  | nil => simp [replaceFirstL]
  | cons o old2 =>
    rw [replaceFirstL, if_neg (by simp)]
    exact replaceFirstGo_pre o old2 rest new

theorem replaceFirstGo_not_contains (old new : List Char) :
    ∀ s, containsSubL old s = false → replaceFirstGo old new s = s := by
  intro s
  induction s with
  | nil => intro h; rfl
  | cons c rest ih =>
    intro h
    rw [containsSubL, Bool.or_eq_false_iff] at h
    rw [replaceFirstGo, if_neg (by simp [h.1]), ih h.2]

/-- Replacing a pattern that does not occur is the identity. -/
theorem replaceFirst_not_contains (old new s : List Char) (h : containsSubL old s = false) :
    replaceFirstL old new s = s := by
  have hne : old ≠ [] := by
    intro he
    subst he
    cases s with
    | nil => simp [containsSubL, List.isEmpty] at h
    | cons c r => simp [containsSubL, List.isPrefixOf] at h
  rw [replaceFirstL, if_neg hne]
  exact replaceFirstGo_not_contains old new s h

theorem replaceFirstS_pre (f rest t : String) :
    replaceFirstS (f ++ rest) f t = t ++ rest := by
  apply strExt
  show replaceFirstL f.data t.data (f ++ rest).data = (t ++ rest).data
  rw [strDataAppend, strDataAppend]
  exact replaceFirst_pre f.data rest.data t.data

theorem replaceFirstS_not_contains (s f t : String) (h : containsSubS s f = false) :
    replaceFirstS s f t = s := by
  apply strExt
  show replaceFirstL f.data t.data s.data = s.data
  exact replaceFirst_not_contains f.data t.data s.data h

mutual
/-- The path list of a rewritten tree is the rewritten path list. -/
theorem rewrite_paths_map (e : Repo) (f t : String) :
    (RewritePaths e f t).Paths = e.Paths.map (fun p => replaceFirstS p f t) := by
  cases e with
  | mk a p u c k exts r =>
    simp only [RewritePaths, Repo.Paths, List.map_cons]
    rw [rewrite_pathsList_map exts f t]
theorem rewrite_pathsList_map (es : List Repo) (f t : String) :
    RepoPathsList (RewritePathsList es f t) =
      (RepoPathsList es).map (fun p => replaceFirstS p f t) := by
  cases es with
  | nil => rfl
  | cons e es =>
    simp only [RewritePathsList, RepoPathsList, List.map_append]
    rw [rewrite_paths_map e f t, rewrite_pathsList_map es f t]
end

mutual
/-- Rewriting twice equals rewriting once when no rewritten path still
contains the pattern. -/
theorem rewrite_idem_one (e : Repo) (f t : String)
    (h : ∀ p ∈ e.Paths, containsSubS (replaceFirstS p f t) f = false) :
    RewritePaths (RewritePaths e f t) f t = RewritePaths e f t := by
  cases e with
  | mk a p u c k exts r =>
    have hp : containsSubS (replaceFirstS p f t) f = false := by
      apply h
      simp [Repo.Paths]
    have hrest : ∀ q ∈ RepoPathsList exts, containsSubS (replaceFirstS q f t) f = false := by
      intro q hq
      apply h
      simp [Repo.Paths, hq]
    simp only [RewritePaths]
    rw [replaceFirstS_not_contains _ f t hp, rewrite_idem_list exts f t hrest]
theorem rewrite_idem_list (es : List Repo) (f t : String)
    (h : ∀ p ∈ RepoPathsList es, containsSubS (replaceFirstS p f t) f = false) :
    RewritePathsList (RewritePathsList es f t) f t = RewritePathsList es f t := by
  cases es with
  | nil => rfl
  | cons e es =>
    have h1 : ∀ q ∈ e.Paths, containsSubS (replaceFirstS q f t) f = false := by
      intro q hq
      apply h
      simp [RepoPathsList, hq]
    have h2 : ∀ q ∈ RepoPathsList es, containsSubS (replaceFirstS q f t) f = false := by
      intro q hq
      apply h
      simp [RepoPathsList, hq]
    simp only [RewritePathsList]
    rw [rewrite_idem_one e f t h1, rewrite_idem_list es f t h2]
end

/-- C8: if every node's path contains `f` only as a leading prefix (it
starts with `f`, and `f` does not occur inside the path's tail) and no
rewritten path contains `f` any more, then `RewritePaths` replaces that
leading prefix by `t` exactly once in every node's path (pointwise along
the canonical path list), and re-running `RewritePaths` with the same,
now stale, arguments changes nothing. -/
theorem claim_C8_rewritePaths (tr : Repo) (f t : String)
    (h : ∀ p ∈ tr.Paths, (∃ rest, p = f ++ rest) ∧
         containsSubS (String.mk p.data.tail) f = false ∧
         containsSubS (replaceFirstS p f t) f = false) :
    List.Forall₂ (fun p q => ∀ rest, p = f ++ rest → q = t ++ rest)
      tr.Paths (RewritePaths tr f t).Paths ∧
    RewritePaths (RewritePaths tr f t) f t = RewritePaths tr f t := by
  constructor
  · rw [rewrite_paths_map tr f t]
    rw [List.forall₂_map_right_iff]
    rw [List.forall₂_same]
    intro p hp rest hrest
    subst hrest
    exact replaceFirstS_pre f rest t
  · exact rewrite_idem_one tr f t (fun p hp => (h p hp).2.2)

/-- A two-node tree about to be moved from `/old` to `/new`. -/
def rwTreeEx : Repo :=
  .mk 0 "/old" "svn://h/r" "" true [.mk 1 "/old/sub" "svn://h/s" "" false [] none] none

/-- C8 witness: rewriting `/old` to `/new` on the example tree replaces
each path's prefix once, and a second run is a no-op. -/
theorem claim_C8_witness :
    List.Forall₂ (fun p q => ∀ rest, p = "/old" ++ rest → q = "/new" ++ rest)
      rwTreeEx.Paths (RewritePaths rwTreeEx "/old" "/new").Paths ∧
    RewritePaths (RewritePaths rwTreeEx "/old" "/new") "/old" "/new" =
      RewritePaths rwTreeEx "/old" "/new" :=
  claim_C8_rewritePaths rwTreeEx "/old" "/new" (by
    intro p hp
    simp only [rwTreeEx, Repo.Paths, RepoPathsList, List.mem_cons, List.mem_append,
      List.append_nil, List.mem_singleton, List.not_mem_nil, or_false] at hp
    rcases hp with h1 | h1
    · subst h1
      exact ⟨⟨"", by decide⟩, by decide, by decide⟩
    · subst h1
      exact ⟨⟨"/sub", by decide⟩, by decide, by decide⟩)

/-! ## Clean (`(*Repo) Clean`, gish.go lines 538-584)

`Clean` prints a banner per node, asks git for the would-remove listing
(`git clean -ndx`, modelled as the input `listings` keyed by node path),
builds the set of direct-external relative paths, and for every listing
line strips the "Would remove " prefix, trims slashes, skips empty keys
and keys that name a direct external, and removes (or, under the dry-run
flag, only reports) the qualified path.  Then it recurses into the
externals.  The observable behavior is the event trace. -/
inductive CleanEv where
  | cleaning (path : String)
  | removed (path : String)
  | wouldRemove (path : String)
deriving DecidableEq

def CleanEv.isRm : CleanEv → Bool
  | .removed _ => true
  | _ => false

def cleaningOf : CleanEv → Option String
  | .cleaning p => some p
  | _ => none

/-- What the dry run does to a wet-run event: removals become reports. -/
def undry : CleanEv → CleanEv
  | .removed p => .wouldRemove p
  | e => e

/-- The `extMap` keys of `Clean`: each direct external's path with the
first occurrence of the owner's path removed and slashes trimmed. -/
def extRelKeys (repoPath : String) (exts : List Repo) : List String :=
  exts.map (fun ext => trimSlashS (replaceFirstS ext.Path repoPath ""))

/-- The loop body of `Clean` for one listing line: strip the
"Would remove " prefix, trim slashes, skip empty results and direct
externals, act on the qualified path. -/
def cleanLineEv (repoPath : String) (exts : List Repo) (dr : Bool) (line : String) :
    Option CleanEv :=
  let r := trimSlashS (replaceFirstS line "Would remove " "")
  if r = "" then none
  else if (extRelKeys repoPath exts).contains r then none
  else if dr then some (.wouldRemove (pathJoin2 repoPath r))
  else some (.removed (pathJoin2 repoPath r))

/-- The per-node removal phase of `Clean`: the loop over the split
listing lines. -/
def cleanEntries (repoPath : String) (exts : List Repo) (toRmStr : String) (dr : Bool) :
    List CleanEv :=
  (splitOnNl toRmStr).filterMap (cleanLineEv repoPath exts dr)

mutual
/-- Model of `(*Repo) Clean()`: banner, per-node removal phase, then
recursion into the externals in order. -/
def CleanRun (listings : String → String) (dr : Bool) : Repo → List CleanEv
  | .mk a p u c k exts r =>
    CleanEv.cleaning p :: (cleanEntries p exts (listings p) dr ++ CleanRunList listings dr exts)
def CleanRunList (listings : String → String) (dr : Bool) : List Repo → List CleanEv
  | [] => []
  | e :: es => CleanRun listings dr e ++ CleanRunList listings dr es
end

/-! ## Claim C9: dry-run `Clean` only reports -/

theorem cleanLineEv_dry (p : String) (exts : List Repo) (line : String) :
    cleanLineEv p exts true line = (cleanLineEv p exts false line).map undry := by
  simp only [cleanLineEv]
  by_cases h1 : trimSlashS (replaceFirstS line "Would remove " "") = ""
  · simp [h1]
  · by_cases h2 : trimSlashS (replaceFirstS line "Would remove " "") ∈ extRelKeys p exts
    · simp [h1, h2]
    · simp [h1, h2, undry]

theorem cleanEntries_dry (p : String) (exts : List Repo) (toRm : String) :
    cleanEntries p exts toRm true = (cleanEntries p exts toRm false).map undry := by
  unfold cleanEntries
  rw [List.map_filterMap]
  congr 1
  funext line
  exact cleanLineEv_dry p exts line

mutual
/-- The dry-run trace is the wet-run trace with removals turned into
reports. -/
theorem cleanRun_dry (L : String → String) (e : Repo) :
    CleanRun L true e = (CleanRun L false e).map undry := by
  cases e with
  | mk a p u c k exts r =>
    simp only [CleanRun, List.map_cons, List.map_append]
    rw [cleanEntries_dry, cleanRunList_dry L exts]
    rfl
theorem cleanRunList_dry (L : String → String) (es : List Repo) :
    CleanRunList L true es = (CleanRunList L false es).map undry := by
  cases es with
  | nil => rfl
  | cons e es =>
    simp only [CleanRunList, List.map_append]
    rw [cleanRun_dry L e, cleanRunList_dry L es]
end

theorem cleanEntries_no_banner (p : String) (exts : List Repo) (toRm : String) (dr : Bool) :
    (cleanEntries p exts toRm dr).filterMap cleaningOf = [] := by
  rw [List.filterMap_eq_nil_iff]
  intro ev hev
  rcases List.mem_filterMap.mp hev with ⟨line, _, hline⟩
  simp only [cleanLineEv] at hline
  by_cases h1 : trimSlashS (replaceFirstS line "Would remove " "") = ""
  · rw [if_pos h1] at hline
    exact absurd hline (by simp)
  · rw [if_neg h1] at hline
    by_cases h2 :
        (extRelKeys p exts).contains (trimSlashS (replaceFirstS line "Would remove " "")) = true
    · rw [if_pos h2] at hline
      exact absurd hline (by simp)
    · rw [if_neg h2] at hline
      cases dr with
      | true =>
        rw [if_pos rfl] at hline
        injection hline with h3
        subst h3
        rfl
      | false =>
        rw [if_neg (by simp)] at hline
        injection hline with h3
        subst h3
        rfl

mutual
/-- The banners of a `Clean` trace are exactly the canonical path
traversal: the recursion visits every node. -/
theorem cleanRun_visits (L : String → String) (dr : Bool) (e : Repo) :
    (CleanRun L dr e).filterMap cleaningOf = e.Paths := by
  cases e with
  | mk a p u c k exts r =>
    simp only [CleanRun, Repo.Paths, List.filterMap_cons, List.filterMap_append]
    rw [cleanEntries_no_banner, cleanRunList_visits L dr exts]
    rfl
theorem cleanRunList_visits (L : String → String) (dr : Bool) (es : List Repo) :
    (CleanRunList L dr es).filterMap cleaningOf = RepoPathsList es := by
  cases es with
  | nil => rfl
  | cons e es =>
    simp only [CleanRunList, RepoPathsList, List.filterMap_append]
    rw [cleanRun_visits L dr e, cleanRunList_visits L dr es]
end

/-- C9: a dry-run `Clean` performs no removal anywhere in the tree (no
`removed` event occurs in its trace), it still visits every node of the
tree in canonical order (the banner trace equals the path traversal),
and it differs from the wet run only in reporting instead of removing
(the dry trace is the wet trace with removals mapped to reports); the
model returns an event trace and leaves the tree value untouched, as the
Go method writes no `Repo` field. -/
theorem claim_C9_dryRunClean (listings : String → String) (t : Repo) :
    (CleanRun listings true t).all (fun ev => !(CleanEv.isRm ev)) = true ∧
    (CleanRun listings true t).filterMap cleaningOf = t.Paths ∧
    CleanRun listings true t = (CleanRun listings false t).map undry := by
  refine ⟨?_, cleanRun_visits listings true t, cleanRun_dry listings t⟩
  rw [cleanRun_dry listings t]
  rw [List.all_eq_true]
  intro ev hev
  rcases List.mem_map.mp hev with ⟨ev0, _, hev0⟩
  subst hev0
  cases ev0 <;> rfl

/-! ## Claim C6: `Clean` never touches a direct child -/

theorem strEmptyAppend (s : String) : "" ++ s = s := by
  apply strExt
  rw [strDataAppend]
  rfl

/-- The `extMap` key of a direct external that sits one level below the
owner (with a clean relative path) is exactly that relative path. -/
theorem extRelKey_eq (repoPath : String) (ext : Repo) (c : String)
    (hpath : ext.Path = repoPath ++ "/" ++ c) (htrim : trimSlashS ("/" ++ c) = c) :
    trimSlashS (replaceFirstS ext.Path repoPath "") = c := by
  rw [hpath, String.append_assoc, replaceFirstS_pre, strEmptyAppend, htrim]

/-- Stripping the "Would remove " prefix of a listing line leaves the
listed entry. -/
theorem cleanLine_key (line e : String) (hline : line = "Would remove " ++ e) :
    trimSlashS (replaceFirstS line "Would remove " "") = trimSlashS e := by
  rw [hline, replaceFirstS_pre, strEmptyAppend]

theorem qualified_inj (p r c : String)
    (h : p ++ "/" ++ r = p ++ "/" ++ c) : r = c := by
  rw [String.append_assoc, String.append_assoc] at h
  have h2 := strAppendCancelLeft h
  exact strAppendCancelLeft h2

/-- C6: assume each direct external sits at `repo.Path ++ "/" ++ c` for
a slash-trimmed non-empty `c` (the spec's invariant that children do not
escape the owner's prefix) and each non-empty listing line has the git
dry-run shape "Would remove " followed by a repository-relative entry
that joins cleanly under the owner's path.  Then the removal phase never
removes — nor, in dry-run mode, proposes to remove — any direct child's
path, and every listed entry whose qualified path equals no direct
child's path is acted on. -/
theorem claim_C6_cleanSkipsChildren (repo : Repo) (toRm : String) (dr : Bool)
    (hchild : ∀ ext ∈ repo.Externals, ∃ c, ext.Path = repo.Path ++ "/" ++ c ∧
        trimSlashS ("/" ++ c) = c ∧ c ≠ "" ∧
        pathJoin2 repo.Path c = repo.Path ++ "/" ++ c)
    (hlines : ∀ line ∈ splitOnNl toRm, line = "" ∨ ∃ e, line = "Would remove " ++ e ∧
        trimSlashS e ≠ "" ∧
        pathJoin2 repo.Path (trimSlashS e) = repo.Path ++ "/" ++ trimSlashS e) :
    (∀ ext ∈ repo.Externals, ∀ ev ∈ cleanEntries repo.Path repo.Externals toRm dr,
        ev ≠ CleanEv.removed ext.Path ∧ ev ≠ CleanEv.wouldRemove ext.Path) ∧
    (∀ line ∈ splitOnNl toRm, ∀ e, line = "Would remove " ++ e →
        (∀ ext ∈ repo.Externals, repo.Path ++ "/" ++ trimSlashS e ≠ ext.Path) →
        (if dr then CleanEv.wouldRemove (repo.Path ++ "/" ++ trimSlashS e)
         else CleanEv.removed (repo.Path ++ "/" ++ trimSlashS e)) ∈
          cleanEntries repo.Path repo.Externals toRm dr) := by
  constructor
  · intro ext hext ev hev
    obtain ⟨c, hpath, htrim, hcne, hjoinc⟩ := hchild ext hext
    rcases List.mem_filterMap.mp hev with ⟨line, hlmem, hline⟩
    simp only [cleanLineEv] at hline
    by_cases h1 : trimSlashS (replaceFirstS line "Would remove " "") = ""
    · rw [if_pos h1] at hline
      exact absurd hline (by simp)
    · rw [if_neg h1] at hline
      by_cases h2 : (extRelKeys repo.Path repo.Externals).contains
          (trimSlashS (replaceFirstS line "Would remove " "")) = true
      · rw [if_pos h2] at hline
        exact absurd hline (by simp)
      · rw [if_neg h2] at hline
        rcases hlines line hlmem with hempty | ⟨e, he, hene, hejoin⟩
        · exfalso
          apply h1
          rw [hempty]
          decide
        · have hkey : trimSlashS (replaceFirstS line "Would remove " "") = trimSlashS e :=
            cleanLine_key line e he
          rw [hkey] at hline h2
          have hqual : pathJoin2 repo.Path (trimSlashS e) =
              repo.Path ++ "/" ++ trimSlashS e := hejoin
          have hne : repo.Path ++ "/" ++ trimSlashS e ≠ ext.Path := by
            intro hEq
            apply h2
            apply List.elem_eq_true_of_mem
            rw [hpath] at hEq
            have hrc : trimSlashS e = c := qualified_inj repo.Path (trimSlashS e) c hEq
            rw [hrc]
            rw [show c = trimSlashS (replaceFirstS ext.Path repo.Path "") from
              (extRelKey_eq repo.Path ext c hpath htrim).symm]
            exact List.mem_map_of_mem _ hext
          cases dr with
          | true =>
            rw [if_pos rfl] at hline
            injection hline with h3
            subst h3
            constructor
            · intro hc
              cases hc
            · intro hc
              injection hc with h4
              rw [hqual] at h4
              exact hne h4
          | false =>
            rw [if_neg (by simp)] at hline
            injection hline with h3
            subst h3
            constructor
            · intro hc
              injection hc with h4
              rw [hqual] at h4
              exact hne h4
            · intro hc
              cases hc
  · intro line hlmem e he hnotchild
    have hnonempty : line ≠ "" := by
      rw [he]
      intro hc
      have hd := congrArg String.data hc
      rw [strDataAppend] at hd
      exact absurd hd (by simp)
    rcases hlines line hlmem with hempty | ⟨e2, he2, hene2, hejoin2⟩
    · exact absurd hempty hnonempty
    · have hee : e = e2 := by
        apply strAppendCancelLeft (a := "Would remove ")
        rw [← he, ← he2]
      subst hee
      have hkey : trimSlashS (replaceFirstS line "Would remove " "") = trimSlashS e :=
        cleanLine_key line e he
      have hcont : (extRelKeys repo.Path repo.Externals).contains (trimSlashS e) ≠ true := by
        intro hc
        have hmem := List.mem_of_elem_eq_true hc
        rcases List.mem_map.mp hmem with ⟨ext, hext, hkeyext⟩
        obtain ⟨c, hpath, htrim, hcne, hjoinc⟩ := hchild ext hext
        rw [extRelKey_eq repo.Path ext c hpath htrim] at hkeyext
        apply hnotchild ext hext
        rw [hpath, ← hkeyext]
      apply List.mem_filterMap.mpr
      refine ⟨line, hlmem, ?_⟩
      simp only [cleanLineEv]
      rw [hkey, if_neg hene2, if_neg hcont, ← hejoin2]
      cases dr with
      | true => rw [if_pos rfl, if_pos rfl]
      | false => rw [if_neg (by simp), if_neg (by simp)]

/-- A node with one direct external, and a dry-run listing that names
both that external and a junk entry. -/
def cleanRepoEx : Repo :=
  .mk 0 "/repo" "svn://h/r" "" true
    [.mk 1 "/repo/sub" "svn://h/s" "" false [] (some 0)] (some 0)

def cleanListingEx : String := "Would remove sub/\nWould remove junk\n"

/-- C6 witness: on the example, the junk entry is acted on and is not the
child's path, while the listed child path itself produces no event. -/
theorem claim_C6_witness :
    (CleanEv.removed ("/repo" ++ "/" ++ trimSlashS "junk") ≠ CleanEv.removed "/repo/sub" ∧
     CleanEv.removed ("/repo" ++ "/" ++ trimSlashS "junk") ≠ CleanEv.wouldRemove "/repo/sub") ∧
    CleanEv.removed ("/repo" ++ "/" ++ trimSlashS "junk") ∈
      cleanEntries "/repo" cleanRepoEx.Externals cleanListingEx false := by
  have hch : ∀ ext ∈ cleanRepoEx.Externals, ∃ c,
      ext.Path = cleanRepoEx.Path ++ "/" ++ c ∧
      trimSlashS ("/" ++ c) = c ∧ c ≠ "" ∧
      pathJoin2 cleanRepoEx.Path c = cleanRepoEx.Path ++ "/" ++ c := by
    intro ext hext
    simp only [cleanRepoEx, Repo.Externals, List.mem_singleton] at hext
    subst hext
    exact ⟨"sub", by decide, by decide, by decide, by decide⟩
  have hli : ∀ line ∈ splitOnNl cleanListingEx, line = "" ∨ ∃ e,
      line = "Would remove " ++ e ∧ trimSlashS e ≠ "" ∧
      pathJoin2 cleanRepoEx.Path (trimSlashS e) = cleanRepoEx.Path ++ "/" ++ trimSlashS e := by
    intro line hl
    have hall : ∀ l2 ∈ splitOnNl cleanListingEx,
        l2 = "Would remove sub/" ∨ l2 = "Would remove junk" ∨ l2 = "" := by decide
    rcases hall line hl with rfl | rfl | rfl
    · exact Or.inr ⟨"sub/", by decide, by decide, by decide⟩
    · exact Or.inr ⟨"junk", by decide, by decide, by decide⟩
    · exact Or.inl rfl
  have h := claim_C6_cleanSkipsChildren cleanRepoEx cleanListingEx false hch hli
  have hmem2 := h.2 "Would remove junk" (by decide) "junk" (by decide) (by
    intro ext hext
    simp only [cleanRepoEx, Repo.Externals, List.mem_singleton] at hext
    subst hext
    decide)
  have hmem3 : CleanEv.removed ("/repo" ++ "/" ++ trimSlashS "junk") ∈
      cleanEntries "/repo" cleanRepoEx.Externals cleanListingEx false := hmem2
  refine ⟨?_, hmem3⟩
  exact h.1 (Repo.mk 1 "/repo/sub" "svn://h/s" "" false [] (some 0))
    (List.mem_singleton.mpr rfl)
    (CleanEv.removed ("/repo" ++ "/" ++ trimSlashS "junk")) hmem3
